import Mathlib

/-!
Verification of the line-extraction and field-normalization core of
`src/click-cli/mycli.py` (functions `read_line_from_file`, `file_len`,
`load_line_as_list`), shallowly embedded in Lean.

A text file is modelled by its content string; Python's file iteration is
modelled by `fileLines`, which yields the records of the file, each keeping
its trailing `'\n'` (exactly what `for line in open(path)` enumerates).
Calls that escape through the generic `except Exception: ... sys.exit(2)`
handler are modelled by `PyResult.sysExit 2`.
-/

/-- The sentinel string substituted for missing fields in `load_line_as_list`. -/
def sentinel : String := "nosuppliedvalue"

/-- The ASCII whitespace characters recognized by Python's `str.split()`
(space, tab, newline, carriage return, vertical tab, form feed).
Non-ASCII Unicode whitespace is not modelled; no claim mentions it. -/
def isPySpace (c : Char) : Bool :=
  c = ' ' || c = '\t' || c = '\n' || c = '\r' || c = '\x0b' || c = '\x0c'

/-- Worker for `pySplitWs`: `acc` holds the (reversed) characters of the
token currently being scanned. -/
def splitWsAux : List Char → List Char → List String
  | [], acc => if acc.isEmpty then [] else [String.mk acc.reverse]
  | c :: rest, acc =>
    if isPySpace c then
      if acc.isEmpty then splitWsAux rest []
      else String.mk acc.reverse :: splitWsAux rest []
    else splitWsAux rest (c :: acc)

/-- Python's `s.split()` (no argument): split on runs of whitespace,
discarding empty tokens. -/
def pySplitWs (l : List Char) : List String := splitWsAux l []

/-- `re.sub(r'^,', 'nosuppliedvalue,', line)`: if the line starts with the
delimiter, the matched comma is replaced by `"nosuppliedvalue,"`, i.e. the
sentinel is prefixed in front of the leading comma. -/
def subLeadingComma : List Char → List Char
  | [] => []
  | c :: rest => if c = ',' then sentinel.data ++ ',' :: rest else c :: rest

/-- `re.sub(r',,', ',nosuppliedvalue,', s)`: left-to-right replacement of
non-overlapping occurrences of `",,"` by `",nosuppliedvalue,"`; after a
match the scan resumes after the two matched commas. -/
def subDoubleComma : List Char → List Char
  | [] => []
  | [c] => [c]
  | c :: d :: rest =>
    if c = ',' ∧ d = ',' then
      ',' :: (sentinel.data ++ (',' :: subDoubleComma rest))
    else
      c :: subDoubleComma (d :: rest)

/-- `re.sub(",", " ", s)` acting on one character. -/
def commaToSpace (c : Char) : Char := if c = ',' then ' ' else c

/-- `load_line_as_list` from `mycli.py`:
`line_cleaned = re.sub(r'^,', 'nosuppliedvalue,', line)`;
`line_cleaned = re.sub(r',,', ',nosuppliedvalue,', line_cleaned)`;
`values_list = re.sub(",", " ", line_cleaned).split()`. -/
def load_line_as_list (line : String) : List String :=
  pySplitWs ((subDoubleComma (subLeadingComma line.data)).map commaToSpace)

/-- Worker for `fileLines`: `acc` holds the (reversed) characters of the
record currently being scanned. -/
def fileLinesAux : List Char → List Char → List String
  | [], acc => if acc.isEmpty then [] else [String.mk acc.reverse]
  | c :: rest, acc =>
    if c = '\n' then String.mk (c :: acc).reverse :: fileLinesAux rest []
    else fileLinesAux rest (c :: acc)

/-- Python text-file iteration: the records of the file in order, each
keeping its trailing `'\n'` (a final unterminated record keeps nothing). -/
def fileLines (content : String) : List String := fileLinesAux content.data []

/-- Python's `line.rstrip('\n')`: remove all trailing newline characters. -/
def rstripNewline (s : String) : String :=
  String.mk (s.data.reverse.dropWhile (fun c => c = '\n')).reverse

/-- Outcome of a Python call that either returns a value or terminates the
process through `sys.exit code` (here always via the caught-exception
handlers of `mycli.py`, which call `sys.exit(2)`). -/
inductive PyResult (α : Type) where
  | ok (val : α)
  | sysExit (code : Nat)
deriving DecidableEq, Repr

/-- The `for line_num, line in enumerate(infile)` loop of
`read_line_from_file`: `found` is the local `line_at_line_num`, unbound
(`none`) until some iteration assigns it. There is no early exit. -/
def readLineLoop (target : Nat) : List String → Nat → Option String → Option String
  | [], _, found => found
  | line :: rest, i, found =>
    readLineLoop target rest (i + 1)
      (if i = target then some (rstripNewline line) else found)

/-- `read_line_from_file(inputfile, current_line_num)` from `mycli.py`:
scans all records; on each index match stores the record with trailing
newlines stripped; returns the stored text paired with the requested
number. If no record matched, the `return` raises `NameError` (unbound
local), which the `except Exception` handler turns into `sys.exit(2)`. -/
def read_line_from_file (content : String) (current_line_num : Nat) :
    PyResult (String × Nat) :=
  match readLineLoop current_line_num (fileLines content) 0 none with
  | some text => PyResult.ok (text, current_line_num)
  | none => PyResult.sysExit 2

/-- The `for linenum, l in enumerate(afile): pass` loop of `file_len`:
`last` is the local `linenum`, unbound (`none`) until an iteration runs. -/
def fileLenLoop : List String → Nat → Option Nat → Option Nat
  | [], _, last => last
  | _ :: rest, i, _ => fileLenLoop rest (i + 1) (some i)

/-- `file_len(inputfile)` from `mycli.py`: after enumerating all records,
returns `linenum + 1`. For an empty file the loop body never runs, the
`return` raises `NameError`, and the handler calls `sys.exit(2)`. -/
def file_len (content : String) : PyResult Nat :=
  match fileLenLoop (fileLines content) 0 none with
  | some linenum => PyResult.ok (linenum + 1)
  | none => PyResult.sysExit 2

/-- The content of a file consisting of the given lines, each terminated by
a newline (the claims' "file with L newline-terminated lines"). -/
def mkFile : List String → String
  | [] => ""
  | l :: ls => l ++ "\n" ++ mkFile ls

/-- Worker for `pySplitOnComma`. -/
def splitCommaAux : List Char → List Char → List String
  | [], acc => [String.mk acc.reverse]
  | c :: rest, acc =>
    if c = ',' then String.mk acc.reverse :: splitCommaAux rest []
    else splitCommaAux rest (c :: acc)

/-- Python's `line.split(',')`: the delimiter-separated positions of a
record, keeping empty fields (used to state the claims about the original
fields of a line). -/
def pySplitOnComma (l : List Char) : List String := splitCommaAux l []

/-- Joining a field sequence back with the comma delimiter (the
`join_with_commas` operation the round-trip claim is stated with). -/
def joinComma : List String → String
  | [] => ""
  | [f] => f
  | f :: rest => f ++ "," ++ joinComma rest

-- concrete sanity checks of the embedding against the Python semantics
example : load_line_as_list "a,b,c" = ["a", "b", "c"] := by decide
example : load_line_as_list ",b,c" = ["nosuppliedvalue", "b", "c"] := by decide
example : load_line_as_list "a,,c" = ["a", "nosuppliedvalue", "c"] := by decide
example : load_line_as_list "a,b," = ["a", "b"] := by decide
example : load_line_as_list "" = [] := by decide
example : load_line_as_list "a,,,b" = ["a", "nosuppliedvalue", "b"] := by decide
example : load_line_as_list "a b,c" = ["a", "b", "c"] := by decide
example : load_line_as_list " a ,b" = ["a", "b"] := by decide
example : fileLines (mkFile ["h1,h2", "1,2", ",4"]) = ["h1,h2\n", "1,2\n", ",4\n"] := by decide
example : read_line_from_file (mkFile ["h1,h2", "1,2", ",4"]) 0 =
    PyResult.ok ("h1,h2", 0) := by decide
example : read_line_from_file (mkFile ["a"]) 1 = PyResult.sysExit 2 := by decide
example : file_len (mkFile ["h1,h2", "1,2", ",4"]) = PyResult.ok 3 := by decide
example : file_len (mkFile []) = PyResult.sysExit 2 := by decide
example : pySplitOnComma ("a,b,".data) = ["a", "b", ""] := by decide
example : joinComma ["a", "nosuppliedvalue", "c"] = "a,nosuppliedvalue,c" := by decide

/-! ## Closed-form claims -/

/-- Claim C2 (code behavior at the failing input): for a file with one
newline-terminated line and ordinal 1 (one past the end), the code does not
signal a `LineNotFound`-kind failure; the unbound local `line_at_line_num`
raises `NameError`, the generic handler catches it, and the process exits
with status 2 — the same path as an `IOError`. -/
theorem read_line_out_of_range_exits_2 :
    read_line_from_file (mkFile ["a"]) 1 = PyResult.sysExit 2 := by decide

/-- Claim C3 (counterexample): for the file with exactly 0
newline-terminated lines, `file_len` does not return 0; it exits with
status 2. -/
theorem file_len_empty_file_not_zero :
    file_len (mkFile []) ≠ PyResult.ok 0 ∧ file_len (mkFile []) = PyResult.sysExit 2 := by
  decide

/-- Claim C4: `normalize` substitutes the sentinel for a single empty field
in leading or interior position. -/
theorem normalize_leading_and_interior_empty :
    load_line_as_list ",b,c" = ["nosuppliedvalue", "b", "c"] ∧
    load_line_as_list "a,,c" = ["a", "nosuppliedvalue", "c"] := by decide

/-- Claim C5: a trailing empty field is silently dropped by `normalize`,
not replaced with the sentinel. -/
theorem normalize_drops_trailing_empty :
    load_line_as_list "a,b," = ["a", "b"] := by decide

/-- Claim C7 (counterexample): on the line `"a,b,"` the output of
`normalize` has length 2 while the record has 3 delimiter-separated
positions (including the trailing empty), so `normalize` does drop a
field position. -/
theorem normalize_not_length_preserving :
    (load_line_as_list "a,b,").length ≠ (pySplitOnComma ("a,b,".data)).length := by
  decide

/-- Claim C9: a field containing internal whitespace is split into several
output fields, and leading/trailing whitespace within a field is removed:
`normalize "a b,c" = ["a","b","c"]` and `normalize " a ,b" = ["a","b"]`. -/
theorem normalize_splits_on_internal_whitespace :
    load_line_as_list "a b,c" = ["a", "b", "c"] ∧
    load_line_as_list " a ,b" = ["a", "b"] := by decide

/-- Claim C10: for an empty (zero-line) file the enumeration loop of
`file_len` never runs, the local `linenum` stays unbound, and the resulting
exception is caught and turned into an exit with status 2; in particular
the call does not return 0. -/
theorem file_len_empty_file_exits_2 :
    file_len (mkFile []) = PyResult.sysExit 2 ∧
    file_len (mkFile []) ≠ PyResult.ok 0 := by decide

/-! ## Line Locator lemmas -/

theorem dropWhile_eq_self_of_not {p : Char → Bool} :
    ∀ l : List Char, (∀ c ∈ l, p c = false) → l.dropWhile p = l
  | [], _ => rfl
  | c :: cs, h => by
    rw [List.dropWhile_cons, h c (List.mem_cons_self c cs)]
    simp

theorem rstripNewline_append_newline (l : String) (h : '\n' ∉ l.data) :
    rstripNewline (l ++ "\n") = l := by
  show String.mk ((l ++ "\n").data.reverse.dropWhile (fun c => c = '\n')).reverse = l
  rw [String.data_append]
  show String.mk ((l.data ++ ['\n']).reverse.dropWhile (fun c => c = '\n')).reverse = l
  rw [List.reverse_append]
  simp only [List.reverse_singleton, List.singleton_append, List.dropWhile_cons]
  rw [if_pos (by simp)]
  rw [dropWhile_eq_self_of_not l.data.reverse
    (fun c hc => decide_eq_false (by
      intro hcn
      exact h (hcn ▸ List.mem_reverse.mp hc)))]
  simp

theorem fileLinesAux_append (w : List Char) (hw : '\n' ∉ w) (rest acc : List Char) :
    fileLinesAux (w ++ '\n' :: rest) acc
      = String.mk (acc.reverse ++ w ++ ['\n']) :: fileLinesAux rest [] := by
  induction w generalizing acc with
  | nil => simp [fileLinesAux]
  | cons c w ih =>
    have hc : c ≠ '\n' := fun hcn => hw (hcn ▸ List.mem_cons_self c w)
    have hw2 : '\n' ∉ w := fun hmem => hw (List.mem_cons_of_mem c hmem)
    rw [List.cons_append]
    show fileLinesAux (c :: (w ++ '\n' :: rest)) acc = _
    rw [fileLinesAux, if_neg hc, ih hw2]
    simp

theorem fileLines_mkFile (lines : List String) (h : ∀ l ∈ lines, '\n' ∉ l.data) :
    fileLines (mkFile lines) = lines.map (fun l => l ++ "\n") := by
  induction lines with
  | nil => rfl
  | cons l ls ih =>
    have h1 : '\n' ∉ l.data := h l (List.mem_cons_self l ls)
    have h2 : ∀ x ∈ ls, '\n' ∉ x.data := fun x hx => h x (List.mem_cons_of_mem l hx)
    show fileLinesAux (mkFile (l :: ls)).data [] = _
    have hdata : (mkFile (l :: ls)).data = l.data ++ '\n' :: (mkFile ls).data := by
      show (l ++ "\n" ++ mkFile ls).data = _
      rw [String.data_append, String.data_append, List.append_assoc]
      rfl
    rw [hdata, fileLinesAux_append l.data h1 _ []]
    simp only [List.reverse_nil, List.nil_append, List.map_cons]
    rw [show fileLinesAux (mkFile ls).data [] = fileLines (mkFile ls) from rfl, ih h2]
    rfl

theorem readLineLoop_spec (t : Nat) :
    ∀ (records : List String) (i : Nat) (found : Option String),
      readLineLoop t records i found =
        if i ≤ t ∧ t < i + records.length
        then (records[t - i]?).map rstripNewline
        else found
  | [], i, found => by
    simp only [readLineLoop, List.length_nil]
    rw [if_neg (by omega)]
  | r :: rest, i, found => by
    rw [readLineLoop, readLineLoop_spec t rest (i + 1)]
    simp only [List.length_cons]
    by_cases hit : i = t
    · subst hit
      rw [if_neg (by omega), if_pos rfl, if_pos (by omega)]
      simp
    · by_cases hin : i ≤ t ∧ t < i + (rest.length + 1)
      · have h1 : (i + 1) ≤ t ∧ t < (i + 1) + rest.length := by omega
        rw [if_pos h1, if_pos hin]
        have hsub : t - i = (t - (i + 1)) + 1 := by omega
        rw [hsub, List.getElem?_cons_succ]
      · have h1 : ¬((i + 1) ≤ t ∧ t < (i + 1) + rest.length) := by omega
        rw [if_neg h1, if_neg hit, if_neg hin]

/-- Claim C1: for every file with `L` newline-terminated lines and every
ordinal `o < L`, `read_line_from_file` returns the exact text of the
`(o+1)`-th line with its trailing terminator stripped, paired with the
same ordinal `o` echoed back. -/
theorem read_line_from_file_ok (lines : List String) (o : Nat)
    (hnl : ∀ l ∈ lines, '\n' ∉ l.data) (ho : o < lines.length) :
    read_line_from_file (mkFile lines) o = PyResult.ok (lines[o], o) := by
  have hloop : readLineLoop o (fileLines (mkFile lines)) 0 none = some lines[o] := by
    rw [fileLines_mkFile lines hnl, readLineLoop_spec]
    rw [if_pos (by simp only [List.length_map]; omega)]
    rw [Nat.sub_zero, List.getElem?_map, List.getElem?_eq_getElem ho]
    simp only [Option.map_some']
    rw [rstripNewline_append_newline _ (hnl _ (List.getElem_mem ho))]
  unfold read_line_from_file
  rw [hloop]

/-- Claim C1 witness: the three-line file `"h1,h2\n1,2\n,4\n"` at ordinal 0
yields `("h1,h2", 0)`. -/
theorem read_line_from_file_ok_witness :
    (∀ l ∈ ["h1,h2", "1,2", ",4"], '\n' ∉ l.data) ∧
    ((0 : Nat) < (["h1,h2", "1,2", ",4"] : List String).length) ∧
    read_line_from_file (mkFile ["h1,h2", "1,2", ",4"]) 0 = PyResult.ok ("h1,h2", 0) :=
  ⟨by decide, by decide,
    read_line_from_file_ok ["h1,h2", "1,2", ",4"] 0 (by decide) (by decide)⟩

theorem fileLenLoop_spec :
    ∀ (records : List String) (i : Nat) (last : Option Nat), records ≠ [] →
      fileLenLoop records i last = some (i + records.length - 1)
  | [], _, _, h => absurd rfl h
  | [_], i, _, _ => by simp [fileLenLoop]
  | r :: s :: rest, i, last, _ => by
    rw [fileLenLoop, fileLenLoop_spec (s :: rest) (i + 1) (some i) (by simp)]
    simp only [List.length_cons, Option.some.injEq]
    omega

/-- Claim C3 (amended: `L ≥ 1`): for every file containing exactly `L ≥ 1`
newline-terminated lines, `file_len` returns `L`. (For `L = 0` the code
exits with status 2 instead; see the counterexample.) -/
theorem file_len_ok (lines : List String) (hne : lines ≠ [])
    (hnl : ∀ l ∈ lines, '\n' ∉ l.data) :
    file_len (mkFile lines) = PyResult.ok lines.length := by
  have hmapne : lines.map (fun l => l ++ "\n") ≠ [] := by
    simpa using hne
  have hloop : fileLenLoop (fileLines (mkFile lines)) 0 none
      = some (lines.length - 1) := by
    rw [fileLines_mkFile lines hnl, fileLenLoop_spec _ 0 none hmapne]
    simp
  unfold file_len
  rw [hloop]
  have hlen : lines.length - 1 + 1 = lines.length := by
    cases lines with
    | nil => exact absurd rfl hne
    | cons l ls => simp
  simp [hlen]

/-- Claim C3 witness: the one-line file `"x\n"` has `file_len` equal to 1. -/
theorem file_len_ok_witness :
    ((["x"] : List String) ≠ []) ∧ (∀ l ∈ ["x"], '\n' ∉ l.data) ∧
    file_len (mkFile ["x"]) = PyResult.ok 1 :=
  ⟨by decide, by decide, file_len_ok ["x"] (by decide) (by decide)⟩

/-! ## Field Normalizer: character-level lemmas -/

theorem sentinel_ne_empty : sentinel ≠ "" := by decide

theorem sentinel_chars : ∀ c ∈ sentinel.data, c ≠ ',' ∧ isPySpace c = false := by decide

theorem commaToSpace_ne_comma (c : Char) : commaToSpace c ≠ ',' := by
  unfold commaToSpace
  by_cases hc : c = ','
  · rw [if_pos hc]; decide
  · rw [if_neg hc]; exact hc

theorem commaToSpace_comma : commaToSpace ',' = ' ' := by decide

theorem map_commaToSpace_eq_self (w : List Char) (h : ∀ c ∈ w, c ≠ ',') :
    w.map commaToSpace = w := by
  induction w with
  | nil => rfl
  | cons c cs ih =>
    rw [List.map_cons, ih (fun x hx => h x (List.mem_cons_of_mem c hx))]
    show (if c = ',' then ' ' else c) :: cs = c :: cs
    rw [if_neg (h c (List.mem_cons_self c cs))]

theorem subLeadingComma_of_head_ne (c : Char) (rest : List Char) (hc : c ≠ ',') :
    subLeadingComma (c :: rest) = c :: rest := by
  rw [subLeadingComma, if_neg hc]

theorem subDoubleComma_append_of_no_comma :
    ∀ (w r : List Char), (∀ c ∈ w, c ≠ ',') →
      subDoubleComma (w ++ r) = w ++ subDoubleComma r
  | [], _, _ => rfl
  | c :: w, r, h => by
    have hc : c ≠ ',' := h c (List.mem_cons_self c w)
    have hw : ∀ x ∈ w, x ≠ ',' := fun x hx => h x (List.mem_cons_of_mem c hx)
    have key : ∀ l : List Char, subDoubleComma (c :: l) = c :: subDoubleComma l := by
      intro l
      cases l with
      | nil => rfl
      | cons d rest =>
        show (if c = ',' ∧ d = ',' then ',' :: (sentinel.data ++ (',' :: subDoubleComma rest))
          else c :: subDoubleComma (d :: rest)) = c :: subDoubleComma (d :: rest)
        exact if_neg (fun hcd => hc hcd.1)
    rw [List.cons_append, key (w ++ r), subDoubleComma_append_of_no_comma w r hw,
      List.cons_append]

theorem subDoubleComma_of_no_comma (w : List Char) (h : ∀ c ∈ w, c ≠ ',') :
    subDoubleComma w = w := by
  have h2 := subDoubleComma_append_of_no_comma w [] h
  rw [show subDoubleComma ([] : List Char) = [] from rfl, List.append_nil] at h2
  exact h2

theorem subDoubleComma_comma_cons (w : List Char) (h : ∀ c ∈ w, c ≠ ',') :
    subDoubleComma (',' :: w) = ',' :: w := by
  cases w with
  | nil => rfl
  | cons d rest =>
    rw [subDoubleComma, if_neg (fun hcd => (h d (List.mem_cons_self d rest)) hcd.2),
      subDoubleComma_of_no_comma (d :: rest) h]

theorem subDoubleComma_comma_cons_ne (c : Char) (rest : List Char) (hc : c ≠ ',') :
    subDoubleComma (',' :: c :: rest) = ',' :: subDoubleComma (c :: rest) := by
  rw [subDoubleComma, if_neg (fun hcd => hc hcd.2)]

theorem subDoubleComma_double_comma (rest : List Char) :
    subDoubleComma (',' :: ',' :: rest)
      = ',' :: (sentinel.data ++ (',' :: subDoubleComma rest)) := by
  rw [subDoubleComma, if_pos ⟨rfl, rfl⟩]

/-! ## whitespace-split lemmas -/

theorem splitWsAux_append_no_space (w : List Char)
    (hw : ∀ c ∈ w, isPySpace c = false) :
    ∀ (r acc : List Char), splitWsAux (w ++ r) acc = splitWsAux r (w.reverse ++ acc) := by
  induction w with
  | nil => intro r acc; simp
  | cons c cs ih =>
    intro r acc
    have hc : isPySpace c = false := hw c (List.mem_cons_self c cs)
    have hcs : ∀ x ∈ cs, isPySpace x = false := fun x hx => hw x (List.mem_cons_of_mem c hx)
    rw [List.cons_append, splitWsAux, hc]
    simp only [Bool.false_eq_true, if_false]
    rw [ih hcs r (c :: acc)]
    simp

theorem splitWsAux_last_word (w : List Char) (hw : ∀ c ∈ w, isPySpace c = false)
    (hne : w ≠ []) : splitWsAux w [] = [String.mk w] := by
  have h1 : splitWsAux (w ++ []) [] = splitWsAux [] (w.reverse ++ []) :=
    splitWsAux_append_no_space w hw [] []
  rw [List.append_nil, List.append_nil] at h1
  rw [h1, splitWsAux]
  rw [if_neg (by simpa using hne)]
  simp

theorem splitWsAux_word (w r : List Char) (hw : ∀ c ∈ w, isPySpace c = false)
    (hne : w ≠ []) : splitWsAux (w ++ ' ' :: r) [] = String.mk w :: splitWsAux r [] := by
  rw [splitWsAux_append_no_space w hw (' ' :: r) [], List.append_nil, splitWsAux]
  rw [if_pos (by decide)]
  rw [if_neg (by simpa using hne)]
  simp

theorem splitWsAux_skip_space (r : List Char) :
    splitWsAux (' ' :: r) [] = splitWsAux r [] := by
  rw [splitWsAux]
  simp [show isPySpace ' ' = true from by decide]

/-! ## comma-split lemmas -/

theorem splitCommaAux_append_no_comma (w : List Char) (hw : ∀ c ∈ w, c ≠ ',') :
    ∀ (r acc : List Char), splitCommaAux (w ++ r) acc = splitCommaAux r (w.reverse ++ acc) := by
  induction w with
  | nil => intro r acc; simp
  | cons c cs ih =>
    intro r acc
    have hc : c ≠ ',' := hw c (List.mem_cons_self c cs)
    have hcs : ∀ x ∈ cs, x ≠ ',' := fun x hx => hw x (List.mem_cons_of_mem c hx)
    rw [List.cons_append, splitCommaAux, if_neg hc, ih hcs r (c :: acc)]
    simp

theorem splitCommaAux_last_word (w : List Char) (hw : ∀ c ∈ w, c ≠ ',') :
    splitCommaAux w [] = [String.mk w] := by
  have h1 : splitCommaAux (w ++ []) [] = splitCommaAux [] (w.reverse ++ []) :=
    splitCommaAux_append_no_comma w hw [] []
  rw [List.append_nil, List.append_nil] at h1
  rw [h1, splitCommaAux]
  simp

theorem splitCommaAux_word (w r : List Char) (hw : ∀ c ∈ w, c ≠ ',') :
    splitCommaAux (w ++ ',' :: r) [] = String.mk w :: splitCommaAux r [] := by
  rw [splitCommaAux_append_no_comma w hw (',' :: r) [], List.append_nil, splitCommaAux,
    if_pos rfl]
  simp

/-! ## Token properties and the comma-join round trip -/

theorem splitWsAux_tokens (P : Char → Prop) :
    ∀ (l acc : List Char), (∀ c ∈ l, P c) → (∀ c ∈ acc, P c ∧ isPySpace c = false) →
      ∀ t ∈ splitWsAux l acc, t ≠ "" ∧ ∀ c ∈ t.data, P c ∧ isPySpace c = false
  | [], acc, _, hacc => by
    intro t ht
    rw [splitWsAux] at ht
    cases acc with
    | nil => simp at ht
    | cons a as =>
      rw [if_neg (by simp)] at ht
      rw [List.mem_singleton] at ht
      subst ht
      refine ⟨?_, ?_⟩
      · intro hbad
        have : (a :: as).reverse = [] := congrArg String.data hbad
        simp at this
      · intro c hc
        exact hacc c (List.mem_reverse.mp hc)
  | c :: rest, acc, hl, hacc => by
    intro t ht
    have hlr : ∀ x ∈ rest, P x := fun x hx => hl x (List.mem_cons_of_mem c hx)
    rw [splitWsAux] at ht
    by_cases hsp : isPySpace c = true
    · rw [if_pos hsp] at ht
      cases acc with
      | nil =>
        rw [if_pos (show ([] : List Char).isEmpty = true from rfl)] at ht
        exact splitWsAux_tokens P rest [] hlr (by simp) t ht
      | cons a as =>
        rw [if_neg (by simp)] at ht
        rcases List.mem_cons.mp ht with heq | hmem
        · subst heq
          refine ⟨?_, ?_⟩
          · intro hbad
            have : (a :: as).reverse = [] := congrArg String.data hbad
            simp at this
          · intro x hx
            exact hacc x (List.mem_reverse.mp hx)
        · exact splitWsAux_tokens P rest [] hlr (by simp) t hmem
    · rw [if_neg hsp] at ht
      refine splitWsAux_tokens P rest (c :: acc) hlr ?_ t ht
      intro x hx
      rcases List.mem_cons.mp hx with heq | hmem
      · subst heq
        exact ⟨hl x (List.mem_cons_self x rest), by simpa using hsp⟩
      · exact hacc x hmem

theorem splitCommaAux_tokens (P : Char → Prop) :
    ∀ (l acc : List Char), (∀ c ∈ l, c ≠ ',' → P c) → (∀ c ∈ acc, P c ∧ c ≠ ',') →
      ∀ f ∈ splitCommaAux l acc, ∀ c ∈ f.data, P c ∧ c ≠ ','
  | [], acc, _, hacc => by
    intro f hf c hc
    rw [splitCommaAux, List.mem_singleton] at hf
    subst hf
    exact hacc c (List.mem_reverse.mp hc)
  | d :: rest, acc, hl, hacc => by
    intro f hf c hc
    have hlr : ∀ x ∈ rest, x ≠ ',' → P x := fun x hx => hl x (List.mem_cons_of_mem d hx)
    rw [splitCommaAux] at hf
    by_cases hd : d = ','
    · rw [if_pos hd] at hf
      rcases List.mem_cons.mp hf with heq | hmem
      · subst heq
        exact hacc c (List.mem_reverse.mp hc)
      · exact splitCommaAux_tokens P rest [] hlr (by simp) f hmem c hc
    · rw [if_neg hd] at hf
      refine splitCommaAux_tokens P rest (d :: acc) hlr ?_ f hf c hc
      intro x hx
      rcases List.mem_cons.mp hx with heq | hmem
      · subst heq
        exact ⟨hl x (List.mem_cons_self x rest) hd, hd⟩
      · exact hacc x hmem

theorem splitCommaAux_ne_nil : ∀ (l acc : List Char), splitCommaAux l acc ≠ []
  | [], acc => by rw [splitCommaAux]; simp
  | c :: rest, acc => by
    rw [splitCommaAux]
    by_cases hc : c = ','
    · rw [if_pos hc]; simp
    · rw [if_neg hc]
      exact splitCommaAux_ne_nil rest (c :: acc)

theorem joinComma_cons_cons (f g : String) (rest : List String) :
    joinComma (f :: g :: rest) = f ++ "," ++ joinComma (g :: rest) := rfl

theorem joinComma_splitCommaAux :
    ∀ (l acc : List Char), joinComma (splitCommaAux l acc) = String.mk (acc.reverse ++ l)
  | [], acc => by
    rw [splitCommaAux]
    show String.mk acc.reverse = String.mk (acc.reverse ++ [])
    rw [List.append_nil]
  | c :: rest, acc => by
    by_cases hc : c = ','
    · subst hc
      rw [splitCommaAux, if_pos rfl]
      obtain ⟨s, ss, hss⟩ : ∃ s ss, splitCommaAux rest [] = s :: ss := by
        cases h : splitCommaAux rest ([] : List Char) with
        | nil => exact absurd h (splitCommaAux_ne_nil rest [])
        | cons s ss => exact ⟨s, ss, rfl⟩
      rw [hss, joinComma_cons_cons, ← hss, joinComma_splitCommaAux rest []]
      show String.mk (acc.reverse ++ [','] ++ ([].reverse ++ rest)) = _
      exact congrArg String.mk (by simp)
    · rw [splitCommaAux, if_neg hc, joinComma_splitCommaAux rest (c :: acc)]
      exact congrArg String.mk (by simp)

theorem joinComma_pySplitOnComma (s : String) :
    joinComma (pySplitOnComma s.data) = s := by
  rw [pySplitOnComma, joinComma_splitCommaAux s.data []]
  rfl

/-! ## Normalization of a comma-join of fields -/

/-- The repaired value of one original field position: empty positions get
the sentinel, non-empty fields are unchanged. -/
def repairEmpty (f : String) : String := if f = "" then sentinel else f

theorem data_ne_nil (f : String) (h : f ≠ "") : f.data ≠ [] :=
  fun hd => h (congrArg String.mk hd : f = "")

theorem joinComma_data_cons_cons (f g : String) (rest : List String) :
    (joinComma (f :: g :: rest)).data = f.data ++ ',' :: (joinComma (g :: rest)).data := by
  rw [joinComma_cons_cons, String.data_append, String.data_append, List.append_assoc]
  rfl

theorem joinComma_cons_data (g : String) (rest : List String) :
    ∃ t, (joinComma (g :: rest)).data = g.data ++ t := by
  cases rest with
  | nil => exact ⟨[], by simp [joinComma]⟩
  | cons h hs => exact ⟨',' :: (joinComma (h :: hs)).data, joinComma_data_cons_cons g h hs⟩

theorem subDouble_joinComma :
    ∀ (fields : List String),
      (∀ f ∈ fields, ∀ c ∈ f.data, c ≠ ',') →
      List.Chain' (fun a b => ¬(a = "" ∧ b = "")) fields →
      fields.getLast? ≠ some "" →
      fields.head? ≠ some "" →
      subDoubleComma (joinComma fields).data
        = (joinComma (fields.map repairEmpty)).data
  | [], _, _, _, _ => rfl
  | [f], hc, _, _, hhead => by
    have hf : f ≠ "" := by simpa using hhead
    simp only [List.map_cons, List.map_nil]
    rw [show repairEmpty f = f from if_neg hf]
    exact subDoubleComma_of_no_comma f.data (hc f (List.mem_cons_self f []))
  | f :: g :: rest, hc, hchain, hlast, hhead => by
    have hf : f ≠ "" := by simpa using hhead
    have hcf : ∀ c ∈ f.data, c ≠ ',' := hc f (List.mem_cons_self f (g :: rest))
    have hcrest : ∀ x ∈ g :: rest, ∀ c ∈ x.data, c ≠ ',' :=
      fun x hx => hc x (List.mem_cons_of_mem f hx)
    obtain ⟨hfg, hchain2⟩ := List.chain'_cons.mp hchain
    have hlast2 : (g :: rest).getLast? ≠ some "" := by
      rwa [List.getLast?_cons_cons] at hlast
    rw [joinComma_data_cons_cons, subDoubleComma_append_of_no_comma f.data _ hcf]
    by_cases hg : g = ""
    · subst hg
      cases rest with
      | nil => exact absurd rfl hlast2
      | cons r0 rest2 =>
        have hchain3 := List.chain'_cons.mp hchain2
        have hr0 : r0 ≠ "" := fun h0 => hchain3.1 ⟨rfl, h0⟩
        have hJdata : (joinComma ("" :: r0 :: rest2)).data
            = ',' :: (joinComma (r0 :: rest2)).data := by
          rw [joinComma_data_cons_cons]
          rfl
        rw [hJdata, subDoubleComma_double_comma]
        rw [subDouble_joinComma (r0 :: rest2)
          (fun x hx => hcrest x (List.mem_cons_of_mem _ hx))
          hchain3.2
          (by rwa [List.getLast?_cons_cons] at hlast2)
          (by simpa using hr0)]
        simp only [List.map_cons]
        rw [show repairEmpty f = f from if_neg hf,
          show repairEmpty "" = sentinel from if_pos rfl,
          joinComma_data_cons_cons, joinComma_data_cons_cons]
    · obtain ⟨gc, gtl, hgd⟩ : ∃ a l, g.data = a :: l := by
        cases hgd : g.data with
        | nil => exact absurd (congrArg String.mk hgd : g = "") hg
        | cons a l => exact ⟨a, l, rfl⟩
      have hgc : gc ≠ ',' :=
        hc g (List.mem_cons_of_mem f (List.mem_cons_self g rest)) gc
          (hgd ▸ List.mem_cons_self gc gtl)
      obtain ⟨t, hJ⟩ : ∃ t, (joinComma (g :: rest)).data = gc :: (gtl ++ t) := by
        obtain ⟨t, ht⟩ := joinComma_cons_data g rest
        refine ⟨t, ?_⟩
        rw [ht, hgd]
        rfl
      rw [hJ, subDoubleComma_comma_cons_ne gc _ hgc, ← hJ]
      rw [subDouble_joinComma (g :: rest) hcrest hchain2 hlast2 (by simpa using hg)]
      simp only [List.map_cons]
      rw [show repairEmpty f = f from if_neg hf, joinComma_data_cons_cons]

theorem pySplitWs_joinComma :
    ∀ (fields : List String),
      (∀ f ∈ fields, f ≠ "" ∧ ∀ c ∈ f.data, c ≠ ',' ∧ isPySpace c = false) →
      pySplitWs ((joinComma fields).data.map commaToSpace) = fields
  | [], _ => rfl
  | [f], h => by
    obtain ⟨hf, hc⟩ := h f (List.mem_cons_self f [])
    show splitWsAux ((joinComma [f]).data.map commaToSpace) [] = [f]
    rw [show joinComma [f] = f from rfl,
      map_commaToSpace_eq_self f.data (fun c hcm => (hc c hcm).1),
      splitWsAux_last_word f.data (fun c hcm => (hc c hcm).2) (data_ne_nil f hf)]
  | f :: g :: rest, h => by
    obtain ⟨hf, hcf⟩ := h f (List.mem_cons_self f (g :: rest))
    have h2 : ∀ x ∈ g :: rest, x ≠ "" ∧ ∀ c ∈ x.data, c ≠ ',' ∧ isPySpace c = false :=
      fun x hx => h x (List.mem_cons_of_mem f hx)
    show splitWsAux ((joinComma (f :: g :: rest)).data.map commaToSpace) [] = f :: g :: rest
    rw [joinComma_data_cons_cons, List.map_append,
      map_commaToSpace_eq_self f.data (fun c hcm => (hcf c hcm).1),
      List.map_cons, commaToSpace_comma,
      splitWsAux_word f.data _ (fun c hcm => (hcf c hcm).2) (data_ne_nil f hf)]
    have hrec := pySplitWs_joinComma (g :: rest) h2
    rw [pySplitWs] at hrec
    rw [hrec]

theorem repairEmpty_clean (fields : List String)
    (hfc : ∀ f ∈ fields, ∀ c ∈ f.data, c ≠ ',' ∧ isPySpace c = false) :
    ∀ f ∈ fields.map repairEmpty, f ≠ "" ∧ ∀ c ∈ f.data, c ≠ ',' ∧ isPySpace c = false := by
  intro f hf
  obtain ⟨x, hx, rfl⟩ := List.mem_map.mp hf
  by_cases hxe : x = ""
  · subst hxe
    rw [show repairEmpty "" = sentinel from if_pos rfl]
    exact ⟨sentinel_ne_empty, sentinel_chars⟩
  · rw [show repairEmpty x = x from if_neg hxe]
    exact ⟨hxe, hfc x hx⟩

/-- Normalization of a comma-join of clean fields: when no field contains a
comma or whitespace, the last field is non-empty, and no two consecutive
fields are empty, `load_line_as_list` returns exactly the field sequence
with every empty position replaced by the sentinel. -/
theorem load_line_joinComma (fields : List String)
    (hfc : ∀ f ∈ fields, ∀ c ∈ f.data, c ≠ ',' ∧ isPySpace c = false)
    (hchain : List.Chain' (fun a b => ¬(a = "" ∧ b = "")) fields)
    (hlast : fields.getLast? ≠ some "") :
    load_line_as_list (joinComma fields) = fields.map repairEmpty := by
  have hcomma : ∀ f ∈ fields, ∀ c ∈ f.data, c ≠ ',' :=
    fun f hf c hc => (hfc f hf c hc).1
  cases fields with
  | nil => rfl
  | cons f rest =>
    rw [load_line_as_list]
    by_cases hf : f = ""
    · subst hf
      cases rest with
      | nil => exact absurd rfl hlast
      | cons g rest2 =>
        have hJdata : (joinComma ("" :: g :: rest2)).data
            = ',' :: (joinComma (g :: rest2)).data := by
          rw [joinComma_data_cons_cons]
          rfl
        rw [hJdata,
          show subLeadingComma (',' :: (joinComma (g :: rest2)).data)
            = sentinel.data ++ ',' :: (joinComma (g :: rest2)).data from by
              rw [subLeadingComma, if_pos rfl],
          show sentinel.data ++ ',' :: (joinComma (g :: rest2)).data
            = (joinComma (sentinel :: g :: rest2)).data from
              (joinComma_data_cons_cons sentinel g rest2).symm]
        obtain ⟨hfg, hchain2⟩ := List.chain'_cons.mp hchain
        have hfc2 : ∀ x ∈ sentinel :: g :: rest2,
            ∀ c ∈ x.data, c ≠ ',' ∧ isPySpace c = false := by
          intro x hx
          rcases List.mem_cons.mp hx with heq | hmem
          · subst heq
            exact sentinel_chars
          · exact hfc x (List.mem_cons_of_mem _ hmem)
        have hchain3 : List.Chain' (fun a b => ¬(a = "" ∧ b = ""))
            (sentinel :: g :: rest2) := by
          rw [List.chain'_cons]
          exact ⟨fun hx => sentinel_ne_empty hx.1, hchain2⟩
        have hlast3 : (sentinel :: g :: rest2).getLast? ≠ some "" := by
          rwa [List.getLast?_cons_cons] at hlast ⊢
        rw [subDouble_joinComma (sentinel :: g :: rest2)
          (fun x hx c hc => (hfc2 x hx c hc).1) hchain3 hlast3
          (by simpa using sentinel_ne_empty)]
        have hsplit := pySplitWs_joinComma ((sentinel :: g :: rest2).map repairEmpty)
          (repairEmpty_clean _ hfc2)
        rw [hsplit]
        simp only [List.map_cons]
        rw [show repairEmpty "" = sentinel from if_pos rfl,
          show repairEmpty sentinel = sentinel from if_neg sentinel_ne_empty]
    · obtain ⟨fc, ftl, hfd⟩ : ∃ a l, f.data = a :: l := by
        cases hfd : f.data with
        | nil => exact absurd (congrArg String.mk hfd : f = "") hf
        | cons a l => exact ⟨a, l, rfl⟩
      have hfc0 : fc ≠ ',' :=
        hcomma f (List.mem_cons_self f rest) fc (hfd ▸ List.mem_cons_self fc ftl)
      obtain ⟨t, hJ⟩ : ∃ t, (joinComma (f :: rest)).data = fc :: (ftl ++ t) := by
        obtain ⟨t, ht⟩ := joinComma_cons_data f rest
        refine ⟨t, ?_⟩
        rw [ht, hfd]
        rfl
      rw [hJ, subLeadingComma_of_head_ne fc _ hfc0, ← hJ]
      rw [subDouble_joinComma (f :: rest) hcomma hchain hlast (by simpa using hf)]
      exact pySplitWs_joinComma ((f :: rest).map repairEmpty) (repairEmpty_clean _ hfc)

/-! ## Claims C6, C7, C8 -/

theorem splitCommaAux_comma (r acc : List Char) :
    splitCommaAux (',' :: r) acc = String.mk acc.reverse :: splitCommaAux r [] := by
  rw [splitCommaAux, if_pos rfl]

/-- Claim C6: on a line with a run of three consecutive delimiters between
two clean fields, the record has four delimiter-separated positions (two
interior empties) but `normalize` emits only one sentinel between the two
fields — the run is not fully repaired in a single pass. -/
theorem normalize_triple_comma_partial (p s : String) (hp : p ≠ "") (hs : s ≠ "")
    (hpc : ∀ c ∈ p.data, c ≠ ',' ∧ isPySpace c = false)
    (hsc : ∀ c ∈ s.data, c ≠ ',' ∧ isPySpace c = false) :
    pySplitOnComma (p ++ ",,," ++ s).data = [p, "", "", s] ∧
    load_line_as_list (p ++ ",,," ++ s) = [p, sentinel, s] := by
  have hpcomma : ∀ c ∈ p.data, c ≠ ',' := fun c hc => (hpc c hc).1
  have hscomma : ∀ c ∈ s.data, c ≠ ',' := fun c hc => (hsc c hc).1
  have hpspace : ∀ c ∈ p.data, isPySpace c = false := fun c hc => (hpc c hc).2
  have hsspace : ∀ c ∈ s.data, isPySpace c = false := fun c hc => (hsc c hc).2
  have hdata : (p ++ ",,," ++ s).data = p.data ++ ',' :: ',' :: ',' :: s.data := by
    rw [String.data_append, String.data_append, List.append_assoc]
    rfl
  constructor
  · rw [pySplitOnComma, hdata, splitCommaAux_word p.data _ hpcomma,
      splitCommaAux_comma, splitCommaAux_comma, splitCommaAux_last_word s.data hscomma]
    rfl
  · rw [load_line_as_list, hdata]
    obtain ⟨pc, ptl, hpd⟩ : ∃ a l, p.data = a :: l := by
      cases hpd : p.data with
      | nil => exact absurd (congrArg String.mk hpd : p = "") hp
      | cons a l => exact ⟨a, l, rfl⟩
    have hpc0 : pc ≠ ',' := hpcomma pc (hpd ▸ List.mem_cons_self pc ptl)
    have h1 : subLeadingComma (p.data ++ ',' :: ',' :: ',' :: s.data)
        = p.data ++ ',' :: ',' :: ',' :: s.data := by
      rw [hpd, List.cons_append]
      exact subLeadingComma_of_head_ne pc _ hpc0
    rw [h1, subDoubleComma_append_of_no_comma p.data _ hpcomma,
      subDoubleComma_double_comma, subDoubleComma_comma_cons s.data hscomma,
      List.map_append, map_commaToSpace_eq_self p.data hpcomma,
      List.map_cons, commaToSpace_comma, List.map_append,
      map_commaToSpace_eq_self sentinel.data (fun c hc => (sentinel_chars c hc).1),
      List.map_cons, List.map_cons, commaToSpace_comma,
      map_commaToSpace_eq_self s.data hscomma]
    rw [pySplitWs, splitWsAux_word p.data _ hpspace (data_ne_nil p hp),
      splitWsAux_word sentinel.data _ (fun c hc => (sentinel_chars c hc).2)
        (data_ne_nil sentinel sentinel_ne_empty),
      splitWsAux_skip_space, splitWsAux_last_word s.data hsspace (data_ne_nil s hs)]

/-- Claim C6 witness: at `p = "a"`, `s = "b"` this is the spec's example
`normalize "a,,,b" = ["a", "nosuppliedvalue", "b"]`. -/
theorem normalize_triple_comma_partial_witness :
    (("a" : String) ≠ "") ∧ (("b" : String) ≠ "") ∧
    (∀ c ∈ ("a" : String).data, c ≠ ',' ∧ isPySpace c = false) ∧
    (∀ c ∈ ("b" : String).data, c ≠ ',' ∧ isPySpace c = false) ∧
    (pySplitOnComma ("a" ++ ",,," ++ "b" : String).data = ["a", "", "", "b"] ∧
      load_line_as_list ("a" ++ ",,," ++ "b") = ["a", sentinel, "b"]) :=
  ⟨by decide, by decide, by decide, by decide,
    normalize_triple_comma_partial "a" "b" (by decide) (by decide) (by decide) (by decide)⟩

/-- Claim C7 (amended): for every line with no whitespace, whose last
delimiter-separated field is non-empty and with no two consecutive empty
fields, `normalize` keeps the length equal to the number of
delimiter-separated positions and leaves every non-empty field unchanged at
its position (empty positions receive the sentinel). -/
theorem normalize_preserves_clean_fields (line : String)
    (hws : ∀ c ∈ line.data, isPySpace c = false)
    (hchain : List.Chain' (fun a b => ¬(a = "" ∧ b = "")) (pySplitOnComma line.data))
    (hlast : (pySplitOnComma line.data).getLast? ≠ some "") :
    load_line_as_list line = (pySplitOnComma line.data).map repairEmpty ∧
    (load_line_as_list line).length = (pySplitOnComma line.data).length := by
  have hfc : ∀ f ∈ pySplitOnComma line.data,
      ∀ c ∈ f.data, c ≠ ',' ∧ isPySpace c = false := by
    intro f hf c hc
    have h := splitCommaAux_tokens (fun c => isPySpace c = false) line.data []
      (fun c hcl _ => hws c hcl) (by simp) f hf c hc
    exact ⟨h.2, h.1⟩
  have hmain := load_line_joinComma (pySplitOnComma line.data) hfc hchain hlast
  rw [joinComma_pySplitOnComma line] at hmain
  exact ⟨hmain, by rw [hmain, List.length_map]⟩

/-- Claim C7 witness: at the line `"a,,c"` (positions `["a", "", "c"]`) the
amended claim holds concretely. -/
theorem normalize_preserves_clean_fields_witness :
    (∀ c ∈ ("a,,c" : String).data, isPySpace c = false) ∧
    List.Chain' (fun a b => ¬(a = "" ∧ b = "")) (pySplitOnComma ("a,,c" : String).data) ∧
    ((pySplitOnComma ("a,,c" : String).data).getLast? ≠ some "") ∧
    (load_line_as_list "a,,c" = (pySplitOnComma ("a,,c" : String).data).map repairEmpty ∧
      (load_line_as_list "a,,c").length = (pySplitOnComma ("a,,c" : String).data).length) :=
  ⟨by decide,
    List.chain'_cons.mpr ⟨by decide, List.chain'_cons.mpr
      ⟨by decide, List.chain'_singleton _⟩⟩,
    by decide,
    normalize_preserves_clean_fields "a,,c" (by decide)
      (List.chain'_cons.mpr ⟨by decide, List.chain'_cons.mpr
        ⟨by decide, List.chain'_singleton _⟩⟩)
      (by decide)⟩

theorem normalize_tokens_clean (line : String) :
    ∀ t ∈ load_line_as_list line, t ≠ "" ∧ ∀ c ∈ t.data, c ≠ ',' ∧ isPySpace c = false := by
  intro t ht
  have h := splitWsAux_tokens (fun c => c ≠ ',')
    ((subDoubleComma (subLeadingComma line.data)).map commaToSpace) []
    (fun c hc => by
      obtain ⟨x, _, rfl⟩ := List.mem_map.mp hc
      exact commaToSpace_ne_comma x)
    (by simp) t ht
  exact ⟨h.1, fun c hc => ⟨(h.2 c hc).1, (h.2 c hc).2⟩⟩

theorem map_repairEmpty_of_ne (l : List String) (h : ∀ f ∈ l, f ≠ "") :
    l.map repairEmpty = l := by
  induction l with
  | nil => rfl
  | cons a as ih =>
    rw [List.map_cons, show repairEmpty a = a from if_neg (h a (List.mem_cons_self a as)),
      ih (fun x hx => h x (List.mem_cons_of_mem a hx))]

theorem chain'_of_ne_empty (l : List String) (h : ∀ f ∈ l, f ≠ "") :
    List.Chain' (fun a b => ¬(a = "" ∧ b = "")) l := by
  induction l with
  | nil => simp
  | cons a as ih =>
    cases as with
    | nil => simp
    | cons b bs =>
      rw [List.chain'_cons]
      exact ⟨fun hab => h a (List.mem_cons_self a (b :: bs)) hab.1,
        ih (fun x hx => h x (List.mem_cons_of_mem a hx))⟩

theorem getLast?_ne_of_ne_empty (l : List String) (h : ∀ f ∈ l, f ≠ "") :
    l.getLast? ≠ some "" := by
  intro hbad
  obtain ⟨hne, heq⟩ := List.mem_getLast?_eq_getLast (l := l) (x := "") hbad
  have hmem := List.getLast_mem hne
  rw [← heq] at hmem
  exact h _ hmem rfl

/-- Claim C8: for every input line in which no original field equals the
sentinel, re-normalizing the comma-rejoin of the normalized output is a
no-op. (The proof shows the stronger fact that normalize's output tokens
are always non-empty, comma-free and whitespace-free, so the rejoin is
stable; the hypothesis delimits the claim as stated.) -/
theorem normalize_rejoin_noop (line : String)
    (_hs : ∀ f ∈ pySplitOnComma line.data, f ≠ sentinel) :
    load_line_as_list (joinComma (load_line_as_list line)) = load_line_as_list line := by
  have hclean := normalize_tokens_clean line
  have hne : ∀ f ∈ load_line_as_list line, f ≠ "" := fun f hf => (hclean f hf).1
  have hmain := load_line_joinComma (load_line_as_list line)
    (fun f hf => (hclean f hf).2)
    (chain'_of_ne_empty _ hne)
    (getLast?_ne_of_ne_empty _ hne)
  rw [hmain, map_repairEmpty_of_ne _ hne]

/-- Claim C8 witness: the line `"a,,c"` has no original field equal to the
sentinel, and re-normalizing the rejoined output is a no-op. -/
theorem normalize_rejoin_noop_witness :
    (∀ f ∈ pySplitOnComma ("a,,c" : String).data, f ≠ sentinel) ∧
    load_line_as_list (joinComma (load_line_as_list "a,,c")) = load_line_as_list "a,,c" :=
  ⟨by decide, normalize_rejoin_noop "a,,c" (by decide)⟩
